import Mathlib

/-!
Verification of the overlay-aware video export pipeline: a shallow embedding
of the layer data model, the export router, the active-overlay predicate, the
overlay-store update, the streaming recorder's finalization, the trim-option
normalization, the ffmpeg filter-graph synthesis, and the timeline row-packing
algorithm, together with theorems settling the specification's claims.

Times and pixel coordinates are modelled as rationals (`ℚ`); JavaScript
`Math.ceil`, `Math.round` and ffmpeg's `trunc` become the corresponding
integer-valued operations on `ℚ`.
-/

namespace Cuddles

/-- Layer timing, `{start, end}` in seconds of source-video time
(`VideoEditor.jsx`, `handleAddText` / `handleSaveDrawing`). -/
structure Timing where
  start : ℚ
  «end» : ℚ
deriving DecidableEq

/-- The two layer kinds: text layers and image (drawing) layers.  In the
source a drawing layer is marked by `type === 'image'`. -/
inductive OverlayType where
  | text
  | image
deriving DecidableEq

/-- Text style carried by a layer (`style` in `handleAddText`). -/
structure TextStyle where
  fontSize : ℚ
  color : String
  fontFamily : String
  fontWeight : String
  textAlign : String
deriving DecidableEq

/-- Layer transform: top-left anchor `(x, y)` in preview-space pixels, the
multiplicative `scale` pair and the `rotate` angle in degrees
(`transform` in `handleAddText` / `handleSaveDrawing`). -/
structure Transform where
  x : ℚ
  y : ℚ
  scale : ℚ × ℚ
  rotate : ℚ
deriving DecidableEq

/-- A timed overlay layer as stored in the `textLayers` state of
`VideoEditor.jsx` (both text layers and image/drawing layers live there). -/
structure Layer where
  id : ℕ
  type : OverlayType
  text : String
  src : String
  style : TextStyle
  transform : Transform
  timing : Timing
deriving DecidableEq

/- ------------------------------------------------------------------ -/
/- Export router (`src/utils/exportRouter.js`)                         -/
/- ------------------------------------------------------------------ -/

/-- Result of `getExportMethod`: `'webcodecs'`, `'ffmpeg'` or
`'unsupported'`. -/
inductive ExportMethod where
  | webcodecs
  | ffmpeg
  | unsupported
deriving DecidableEq

/-- `needsWebCodecs` from `exportRouter.js`: WebCodecs is required when
there are text or drawing overlays. -/
def needsWebCodecs (textLayers drawingLayers : List Layer) : Bool :=
  decide (textLayers.length > 0) || decide (drawingLayers.length > 0)

/-- `getExportMethod` from `exportRouter.js`.  `canUseWebCodecs` probes the
browser for the WebCodecs API at runtime; it is passed here as a synthetic
capability flag. -/
def getExportMethod (textLayers drawingLayers : List Layer)
    (canUseWebCodecs : Bool) : ExportMethod :=
  let hasOverlays := needsWebCodecs textLayers drawingLayers
  if hasOverlays then
    if canUseWebCodecs then ExportMethod.webcodecs
    else ExportMethod.unsupported
  else ExportMethod.ffmpeg

/- ------------------------------------------------------------------ -/
/- Active-overlay predicate (`canvasCompositor.getActiveOverlays`,      -/
/- duplicated inline in `MediaRecorderExporter.processVideoFrames`)     -/
/- ------------------------------------------------------------------ -/

/-- The per-overlay activity test from `getActiveOverlays`
(`canvasCompositor.js`) and from the inline filter in
`MediaRecorderExporter.processVideoFrames` (`webcodecsExporter.js`):
`currentTime` is export-relative, the overlay timing is shifted by the
export `startTime` (clamping the shifted start at `0`). -/
def isActiveOverlay (overlay : Layer) (currentTime startTime : ℚ) : Bool :=
  let adjustedStart := max 0 (overlay.timing.start - startTime)
  let adjustedEnd := overlay.timing.«end» - startTime
  decide (currentTime ≥ adjustedStart) && decide (currentTime ≤ adjustedEnd)

/-- `getActiveOverlays` from `canvasCompositor.js`. -/
def getActiveOverlays (overlays : List Layer) (currentTime startTime : ℚ) :
    List Layer :=
  overlays.filter (fun overlay => isActiveOverlay overlay currentTime startTime)

/- ------------------------------------------------------------------ -/
/- Overlay store update (`VideoEditor.jsx`, `handleUpdateText`)         -/
/- ------------------------------------------------------------------ -/

/-- A partial update: the JavaScript object spread `{ ...layer, ...updates }`
overrides exactly the fields present in `updates`, so a patch is one
`Option` per layer field. -/
structure LayerPatch where
  id : Option ℕ
  type : Option OverlayType
  text : Option String
  src : Option String
  style : Option TextStyle
  transform : Option Transform
  timing : Option Timing

/-- The empty update `update(id, {})`. -/
def emptyPatch : LayerPatch := ⟨none, none, none, none, none, none, none⟩

/-- An update naming only `timing`, as in `update(id, {timing})`. -/
def timingPatch (t : Timing) : LayerPatch := ⟨none, none, none, none, none, none, some t⟩

/-- The shallow merge `{ ...layer, ...updates }` of `handleUpdateText`. -/
def applyPatch (layer : Layer) (p : LayerPatch) : Layer :=
  ⟨p.id.getD layer.id, p.type.getD layer.type, p.text.getD layer.text,
   p.src.getD layer.src, p.style.getD layer.style,
   p.transform.getD layer.transform, p.timing.getD layer.timing⟩

/-- `handleUpdateText` from `VideoEditor.jsx`: map over the layer list,
merging the updates into the layer whose id matches. -/
def handleUpdateText (layers : List Layer) (id : ℕ) (updates : LayerPatch) :
    List Layer :=
  layers.map (fun layer => if layer.id = id then applyPatch layer updates else layer)

/- ------------------------------------------------------------------ -/
/- Streaming recorder finalization (`webcodecsExporter.js`)             -/
/- ------------------------------------------------------------------ -/

/-- The `ondataavailable` handler of `MediaRecorderExporter`: a chunk is
appended only when `event.data.size > 0`.  A chunk is modelled as its list
of bytes. -/
def pushChunk (recordedChunks : List (List ℕ)) (data : List ℕ) :
    List (List ℕ) :=
  if 0 < data.length then recordedChunks ++ [data] else recordedChunks

/-- The `onstop` handler of `MediaRecorderExporter.processVideoFrames`:
with zero recorded chunks the promise is rejected with
`'No data was recorded'`; otherwise the chunks are concatenated into the
output blob. -/
def finalizeRecording (recordedChunks : List (List ℕ)) :
    Except String (List ℕ) :=
  if recordedChunks.length = 0 then Except.error "No data was recorded"
  else Except.ok recordedChunks.flatten

/- ------------------------------------------------------------------ -/
/- Trim-option normalization (`MediaRecorderExporter` constructor and   -/
/- `export`)                                                            -/
/- ------------------------------------------------------------------ -/

/-- The constructor line `this.endTime = options.endTime || null` followed
by `export`'s `const duration = this.endTime || videoInfo.duration`: a
JavaScript-falsy `endTime` (absent, `null`, or `0`) is replaced by `null`
here and by the full video duration downstream. -/
def normalizedEndTime (endTime : Option ℚ) : Option ℚ :=
  match endTime with
  | some v => if v = 0 then none else some v
  | none => none

/-- `export`'s `const exportDuration = duration - this.startTime` where
`duration = this.endTime || videoInfo.duration`. -/
def exportDuration (endTime : Option ℚ) (startTime videoDuration : ℚ) : ℚ :=
  (normalizedEndTime endTime).getD videoDuration - startTime

/- ------------------------------------------------------------------ -/
/- Graph-based export backend: filter-graph synthesis                   -/
/- (`VideoEditor.jsx`, `transcode`)                                     -/
/- ------------------------------------------------------------------ -/

/-- JavaScript `Math.round`: round half away from +∞ downward, i.e.
`⌊q + 1/2⌋`. -/
def jsRound (q : ℚ) : ℤ := ⌊q + 1/2⌋

/-- The `trunc` of ffmpeg filter expressions: truncation toward zero. -/
def ratTrunc (q : ℚ) : ℤ := if 0 ≤ q then ⌊q⌋ else -⌊-q⌋

/-- The dimension expression `trunc(v/2)*2` used for `targetWidth` and
`targetHeight` in `transcode`. -/
def targetEvenDim (v : ℚ) : ℤ := 2 * ratTrunc (v / 2)

/-- The numeric parameters of one per-layer sub-graph synthesized by
`transcode`: the `loop` frame count of the loop operator, the rounded
overlay position `(x, y)`, and the combined scale factors
`scaleFactorX/Y` that feed the scale operator's dimension expressions. -/
structure OverlaySpec where
  loop : ℤ
  x : ℤ
  y : ℤ
  sfX : ℚ
  sfY : ℚ
deriving DecidableEq

/-- One iteration of the layer loop in `transcode`: compute the
trim-relative window, skip the layer when it lies fully outside the trim
(`end <= 0 || start >= duration`), otherwise emit the sub-graph
parameters.  The image and text branches of the source compute identical
loop counts, positions and scale factors (the text branch first rasterizes
the text via `renderTextToImage`); both are kept here. -/
def layerOverlaySpec (startTime endTime scaleX scaleY : ℚ) (layer : Layer) :
    Option OverlaySpec :=
  let duration := endTime - startTime
  let start := max 0 (layer.timing.start - startTime)
  let stop := min duration (layer.timing.«end» - startTime)
  if stop ≤ 0 ∨ start ≥ duration then none
  else
    match layer.type with
    | OverlayType.image =>
        let fps : ℚ := 30
        let loopCount := Int.ceil (duration * fps) + 10
        some ⟨loopCount, jsRound (layer.transform.x * scaleX),
          jsRound (layer.transform.y * scaleY),
          layer.transform.scale.1 * scaleX, layer.transform.scale.2 * scaleY⟩
    | OverlayType.text =>
        let fps : ℚ := 30
        let loopCount := Int.ceil (duration * fps) + 10
        some ⟨loopCount, jsRound (layer.transform.x * scaleX),
          jsRound (layer.transform.y * scaleY),
          layer.transform.scale.1 * scaleX, layer.transform.scale.2 * scaleY⟩

/-- The full per-layer loop of `transcode`: skipped layers contribute no
sub-graph. -/
def buildOverlaySpecs (startTime endTime scaleX scaleY : ℚ)
    (textLayers : List Layer) : List OverlaySpec :=
  textLayers.filterMap (layerOverlaySpec startTime endTime scaleX scaleY)

/-- Width handed to the scale operator for a source image of intrinsic
width `iw`: the evaluated `trunc(iw*scaleFactorX/2)*2`. -/
def scaleOperatorWidth (spec : OverlaySpec) (iw : ℚ) : ℤ :=
  targetEvenDim (iw * spec.sfX)

/-- Height handed to the scale operator for a source image of intrinsic
height `ih`: the evaluated `trunc(ih*scaleFactorY/2)*2`. -/
def scaleOperatorHeight (spec : OverlaySpec) (ih : ℚ) : ℤ :=
  targetEvenDim (ih * spec.sfY)

/- ------------------------------------------------------------------ -/
/- Frame compositor geometry (streaming path and canvas compositor)     -/
/- ------------------------------------------------------------------ -/

/-- Top-left corner of the image drawn by the image branch of
`MediaRecorderExporter.drawOverlay` (`webcodecsExporter.js`), evaluated at
rotation `0`: the context is translated to the element center
`(x + scaledWidth/2, y + scaledHeight/2)` with `x = tx·scaleX`,
`scaledWidth = imgW·scaleX`, then scaled by the user `baseScale`, and the
image is drawn with corner offset `(-scaledWidth/2, -scaledHeight/2)`. -/
def mrDrawImageTopLeft (tx ty scaleX scaleY imgW imgH : ℚ)
    (baseScale : ℚ × ℚ) : ℚ × ℚ :=
  let scaledWidth := imgW * scaleX
  let scaledHeight := imgH * scaleY
  let x := tx * scaleX
  let y := ty * scaleY
  (x + scaledWidth / 2 + baseScale.1 * (-(scaledWidth / 2)),
   y + scaledHeight / 2 + baseScale.2 * (-(scaledHeight / 2)))

/-- Top-left corner of the image drawn by `drawImageOverlay` in
`canvasCompositor.js`, evaluated at rotation `0`: the context is
translated to `(tx·scaleX, ty·scaleY)`, scaled by
`(scale.sx·scaleX, scale.sy·scaleY)`, and the image is drawn with corner
`(-imgW/2, -imgH/2)`. -/
def ccDrawImageTopLeft (tx ty scaleX scaleY imgW imgH : ℚ)
    (baseScale : ℚ × ℚ) : ℚ × ℚ :=
  (tx * scaleX + baseScale.1 * scaleX * (-(imgW / 2)),
   ty * scaleY + baseScale.2 * scaleY * (-(imgH / 2)))

/-- The element box drawn by the text branch of
`MediaRecorderExporter.drawOverlay`, evaluated at rotation `0` and user
scale `[1,1]`: the font size is multiplied by the average of the two
scale factors (floored at `1`), the measured text width is modelled as
`widthPerFontUnit · scaledFontSize` (canvas text measurement scales
linearly with the font size), the 4px padding is scaled by the same
average, and the context is translated to the element center
`(x + elementWidth/2, y + elementHeight/2)` with `x = tx·scaleX`.
Returns the element's (top-left, (width, height)). -/
def mrDrawTextBox (tx ty fontSize widthPerFontUnit scaleX scaleY : ℚ) :
    (ℚ × ℚ) × (ℚ × ℚ) :=
  let avgScale := (scaleX + scaleY) / 2
  let scaledFontSize := max 1 (fontSize * avgScale)
  let textWidth := widthPerFontUnit * scaledFontSize
  let textHeight := scaledFontSize
  let padding := 4 * avgScale
  let elementWidth := textWidth + padding * 2
  let elementHeight := textHeight + padding * 2
  let x := tx * scaleX
  let y := ty * scaleY
  ((x + elementWidth / 2 - elementWidth / 2,
    y + elementHeight / 2 - elementHeight / 2),
   (elementWidth, elementHeight))

/- ------------------------------------------------------------------ -/
/- Timeline layout engine (`TextTimeline.jsx`, `getLayerRows`)          -/
/- ------------------------------------------------------------------ -/

/-- Comparison used by `getLayerRows`'s sort:
`(a, b) => a.timing.start - b.timing.start`, i.e. ascending `timing.start`.
JavaScript's `Array.prototype.sort` is stable; it is modelled by the
(stable) insertion sort on this relation. -/
def startLE (a b : Layer) : Prop := a.timing.start ≤ b.timing.start

instance : DecidableRel startLE :=
  fun a b => inferInstanceAs (Decidable (a.timing.start ≤ b.timing.start))

instance : IsTotal Layer startLE :=
  ⟨fun a b => le_total a.timing.start b.timing.start⟩

instance : IsTrans Layer startLE :=
  ⟨fun _ _ _ hab hbc => le_trans hab hbc⟩

/-- `a` may sit directly before `b` in one timeline row:
`a.timing.end ≤ b.timing.start` (the row-placement test of
`getLayerRows`). -/
def precedes (a b : Layer) : Prop := a.timing.«end» ≤ b.timing.start

/-- Two layers may share a row, in either order (the non-overlap relation
of interval packing). -/
def NoOverlap (a b : Layer) : Prop :=
  a.timing.«end» ≤ b.timing.start ∨ b.timing.«end» ≤ a.timing.start

/-- The layer's interval covers the instant `p` (half-open:
`start ≤ p < end`). -/
def covers (p : ℚ) (x : Layer) : Prop :=
  x.timing.start ≤ p ∧ p < x.timing.«end»

instance (p : ℚ) (x : Layer) : Decidable (covers p x) :=
  inferInstanceAs (Decidable (x.timing.start ≤ p ∧ p < x.timing.«end»))

/-- The inner row scan of `getLayerRows`: place `layer` in the first row
whose last-assigned layer ends no later than `layer` starts; append a new
row when no row qualifies.  (An empty row has no last layer; the
JavaScript comparison against `undefined` is falsy, so the scan moves
on — empty rows never arise.) -/
def placeLayer (layer : Layer) : List (List Layer) → List (List Layer)
  | [] => [[layer]]
  | row :: rest =>
    match row.getLast? with
    | some lastLayer =>
        if lastLayer.timing.«end» ≤ layer.timing.start then
          (row ++ [layer]) :: rest
        else row :: placeLayer layer rest
    | none => row :: placeLayer layer rest

/-- `getLayerRows` from `TextTimeline.jsx`: sort the layers by
`timing.start` (stable) and fold them through the first-fit row scan. -/
def getLayerRows (textLayers : List Layer) : List (List Layer) :=
  (List.insertionSort startLE textLayers).foldl
    (fun rows layer => placeLayer layer rows) []

/-- `totalRows` returned by `getLayerRows`. -/
def totalRows (textLayers : List Layer) : ℕ := (getLayerRows textLayers).length

/-- The `rows.forEach((row, index) => ...)` accumulation building
`layerRowMap`: later assignments to the same id overwrite earlier ones. -/
def layerRowMapFrom (index : ℕ) (rows : List (List Layer)) (i : ℕ)
    (acc : Option ℕ) : Option ℕ :=
  match rows with
  | [] => acc
  | row :: rest =>
      layerRowMapFrom (index + 1) rest i
        (if row.any (fun layer => layer.id == i) then some index else acc)

/-- The `layerRowMap` object returned by `getLayerRows`: layer id to row
index. -/
def layerRowMap (rows : List (List Layer)) (i : ℕ) : Option ℕ :=
  layerRowMapFrom 0 rows i none

/- ------------------------------------------------------------------ -/
/- Concrete fixtures used by witnesses                                  -/
/- ------------------------------------------------------------------ -/

/-- Default style of a freshly added text layer (`handleAddText`). -/
def demoStyle : TextStyle := ⟨40, "#ffffff", "Clash Display", "600", "center"⟩

/-- Default transform of a freshly added text layer (`handleAddText`). -/
def demoTransform : Transform := ⟨100, 100, (1, 1), 0⟩

/-- A text layer timed `{start: 2, end: 5}`, the example of the
active-layer claim. -/
def layerTwoFive : Layer :=
  ⟨7, OverlayType.text, "hello", "", demoStyle, demoTransform, ⟨2, 5⟩⟩

/-- A text layer timed `[0, 1]`. -/
def layerA : Layer :=
  ⟨1, OverlayType.text, "a", "", demoStyle, demoTransform, ⟨0, 1⟩⟩

/-- An image layer timed `[2, 3]`. -/
def layerB : Layer :=
  ⟨2, OverlayType.image, "Drawing", "data:image/png", demoStyle, demoTransform, ⟨2, 3⟩⟩

/-- A text layer at preview position `x = 51` (used to exhibit the
sub-pixel disagreement of the two export paths). -/
def layerText51 : Layer :=
  ⟨3, OverlayType.text, "hi", "", demoStyle, ⟨51, 50, (1, 1), 0⟩, ⟨0, 10⟩⟩

/-- An image layer at the origin with unit user scale (used with a
display-to-encode scale factor of `1/10`). -/
def layerImageTenth : Layer :=
  ⟨4, OverlayType.image, "Drawing", "data:image/png", demoStyle, ⟨0, 0, (1, 1), 0⟩, ⟨0, 10⟩⟩

/- ------------------------------------------------------------------ -/
/- Theorems: C3, C7, C8, C9, C10                                        -/
/- ------------------------------------------------------------------ -/

/-- Claim C3: the export routing function is total (it is a total Lean
function) and decides: empty layer lists give `'ffmpeg'` (the graph-based
path) regardless of the capability flag; non-empty layers give
`'webcodecs'` when frame-codec access is available and `'unsupported'`
otherwise. -/
theorem getExportMethod_routes (tl dl : List Layer) (c : Bool) :
    (tl = [] → dl = [] → getExportMethod tl dl c = ExportMethod.ffmpeg) ∧
    (tl ≠ [] ∨ dl ≠ [] →
      (c = true → getExportMethod tl dl c = ExportMethod.webcodecs) ∧
      (c = false → getExportMethod tl dl c = ExportMethod.unsupported)) := by
  constructor
  · rintro rfl rfl
    cases c <;> rfl
  · intro h
    have hb : needsWebCodecs tl dl = true := by
      rcases h with h | h
      · cases tl with
        | nil => exact absurd rfl h
        | cons a t => simp [needsWebCodecs]
      · cases dl with
        | nil => exact absurd rfl h
        | cons a t => simp [needsWebCodecs]
    constructor
    · rintro rfl
      simp [getExportMethod, hb]
    · rintro rfl
      simp [getExportMethod, hb]

/-- Witness for C3: both capability values on the empty layer lists route to
`'ffmpeg'`, and a non-empty list routes by the flag. -/
theorem getExportMethod_routes_witness :
    getExportMethod [] [] true = ExportMethod.ffmpeg ∧
    getExportMethod [] [] false = ExportMethod.ffmpeg ∧
    getExportMethod [layerA] [] true = ExportMethod.webcodecs ∧
    getExportMethod [layerA] [] false = ExportMethod.unsupported :=
  ⟨(getExportMethod_routes [] [] true).1 rfl rfl,
   (getExportMethod_routes [] [] false).1 rfl rfl,
   ((getExportMethod_routes [layerA] [] true).2 (Or.inl (by simp))).1 rfl,
   ((getExportMethod_routes [layerA] [] false).2 (Or.inl (by simp))).2 rfl⟩

/-- The activity test, rephrased in source-video time: for `t ≥ T0` the
clamped window `[max 0 (start - T0), end - T0]` contains `t - T0` exactly
when `[start, end]` contains `t`. -/
theorem isActiveOverlay_iff (l : Layer) (t T0 : ℚ) (h : T0 ≤ t) :
    isActiveOverlay l (t - T0) T0 = true ↔
      l.timing.start ≤ t ∧ t ≤ l.timing.«end» := by
  simp only [isActiveOverlay, Bool.and_eq_true, decide_eq_true_eq, ge_iff_le,
    max_le_iff]
  constructor
  · rintro ⟨⟨h0, hs⟩, he⟩
    exact ⟨by linarith, by linarith⟩
  · rintro ⟨hs, he⟩
    exact ⟨⟨by linarith, by linarith⟩, by linarith⟩

/-- Claim C7: for playback times `t` at or after the export start `T0`
(the only times the exporter feeds to the predicate), the layer is active
at `t` iff `timing.start ≤ t ≤ timing.end`, inclusive at both endpoints —
independent of the trim offset `T0`, export-relative time being `t - T0`;
concretely a `{start: 2, end: 5}` layer is active at `t = 2` and `t = 5`
and inactive at `t = 1.999` and `t = 5.001`. -/
theorem isActiveOverlay_spec :
    (∀ (l : Layer) (t T0 : ℚ), T0 ≤ t →
        (isActiveOverlay l (t - T0) T0 = true ↔
          l.timing.start ≤ t ∧ t ≤ l.timing.«end»)) ∧
    isActiveOverlay layerTwoFive 2 0 = true ∧
    isActiveOverlay layerTwoFive 5 0 = true ∧
    isActiveOverlay layerTwoFive (1999/1000) 0 = false ∧
    isActiveOverlay layerTwoFive (5001/1000) 0 = false := by
  have key : ∀ t : ℚ, isActiveOverlay layerTwoFive t 0 = true ↔
      (2 ≤ t ∧ t ≤ 5) := by
    intro t
    simp only [layerTwoFive, isActiveOverlay, Bool.and_eq_true,
      decide_eq_true_eq, ge_iff_le, max_le_iff]
    constructor
    · rintro ⟨⟨h0, hs⟩, he⟩
      exact ⟨by linarith, by linarith⟩
    · rintro ⟨hs, he⟩
      exact ⟨⟨by linarith, by linarith⟩, by linarith⟩
  refine ⟨isActiveOverlay_iff, ?_, ?_, ?_, ?_⟩
  · exact (key 2).2 ⟨le_refl 2, by norm_num⟩
  · exact (key 5).2 ⟨by norm_num, le_refl 5⟩
  · have hne : ¬ isActiveOverlay layerTwoFive (1999/1000) 0 = true := by
      intro hcon
      rcases (key (1999/1000)).1 hcon with ⟨hs, _⟩
      norm_num at hs
    simpa only [Bool.not_eq_true] using hne
  · have hne : ¬ isActiveOverlay layerTwoFive (5001/1000) 0 = true := by
      intro hcon
      rcases (key (5001/1000)).1 hcon with ⟨_, he⟩
      norm_num at he
    simpa only [Bool.not_eq_true] using hne

/-- Witness for C7: the equivalence applied at the `{2,5}` layer, `t = 2`,
trim start `0`. -/
theorem isActiveOverlay_spec_witness :
    ((0 : ℚ) ≤ 2) ∧
    (isActiveOverlay layerTwoFive (2 - 0) 0 = true ↔
      layerTwoFive.timing.start ≤ 2 ∧ (2 : ℚ) ≤ layerTwoFive.timing.«end») :=
  ⟨by norm_num, isActiveOverlay_spec.1 layerTwoFive 2 0 (by norm_num)⟩

/-- Claim C8: `update(id, {})` leaves the layer list unchanged;
`update(id, {timing})` overrides only `timing`, leaving `transform` and
every other field of the layer untouched; and a layer whose id differs from
the updated id is never modified, for any patch. -/
theorem handleUpdateText_spec (layers : List Layer) (i : ℕ) (t : Timing) :
    handleUpdateText layers i emptyPatch = layers ∧
    (∀ l : Layer,
        (applyPatch l (timingPatch t)).transform = l.transform ∧
        (applyPatch l (timingPatch t)).text = l.text ∧
        (applyPatch l (timingPatch t)).style = l.style ∧
        (applyPatch l (timingPatch t)).src = l.src ∧
        (applyPatch l (timingPatch t)).id = l.id ∧
        (applyPatch l (timingPatch t)).type = l.type ∧
        (applyPatch l (timingPatch t)).timing = t) ∧
    (∀ (p : LayerPatch) (j : ℕ) (l : Layer), layers[j]? = some l → l.id ≠ i →
        (handleUpdateText layers i p)[j]? = some l) := by
  refine ⟨?_, fun l => ⟨rfl, rfl, rfl, rfl, rfl, rfl, rfl⟩, ?_⟩
  · unfold handleUpdateText
    have h : ∀ l ∈ layers, (if l.id = i then applyPatch l emptyPatch else l) = l := by
      intro l _
      split <;> rfl
    rw [List.map_congr_left h]
    simp
  · intro p j l hj hne
    unfold handleUpdateText
    rw [List.getElem?_map, hj]
    simp [hne]

/-- Witness for C8: updating layer id `1` in a two-layer store leaves the
layer with id `2` untouched. -/
theorem handleUpdateText_spec_witness :
    ([layerA, layerB][1]? = some layerB) ∧ layerB.id ≠ 1 ∧
    (handleUpdateText [layerA, layerB] 1 (timingPatch ⟨4, 6⟩))[1]? = some layerB :=
  ⟨rfl, by decide,
   (handleUpdateText_spec [layerA, layerB] 1 ⟨4, 6⟩).2.2 (timingPatch ⟨4, 6⟩) 1
     layerB rfl (by decide)⟩

/-- Only non-empty chunks ever enter `recordedChunks`. -/
theorem foldl_pushChunk_ne_nil (events : List (List ℕ)) :
    ∀ acc : List (List ℕ), (∀ c ∈ acc, c ≠ []) →
      ∀ c ∈ events.foldl pushChunk acc, c ≠ [] := by
  induction events with
  | nil => exact fun acc h => h
  | cons e es ih =>
    intro acc h
    refine ih (pushChunk acc e) ?_
    intro c hc
    unfold pushChunk at hc
    split at hc
    · rcases List.mem_append.1 hc with hc | hc
      · exact h c hc
      · rcases List.mem_singleton.1 hc with rfl
        exact List.ne_nil_of_length_pos (by assumption)
    · exact h c hc

/-- Claim C9: a streaming-backend run in which the encoder sink receives
zero data chunks terminates in failure with the "no data recorded"
diagnostic, and a successful finalization can never produce an empty
output byte stream. -/
theorem zeroChunks_fails (events : List (List ℕ))
    (h : ∀ e ∈ events, e.length = 0) :
    finalizeRecording (events.foldl pushChunk []) =
      Except.error "No data was recorded" ∧
    (∀ (events' : List (List ℕ)) (b : List ℕ),
        finalizeRecording (events'.foldl pushChunk []) = Except.ok b →
          b ≠ []) := by
  constructor
  · have hz : ∀ (evs : List (List ℕ)) (acc : List (List ℕ)),
        (∀ e ∈ evs, e.length = 0) → evs.foldl pushChunk acc = acc := by
      intro evs
      induction evs with
      | nil => intro acc _; rfl
      | cons e es ih =>
        intro acc he
        have h0 : e.length = 0 := he e (by simp)
        have : pushChunk acc e = acc := by
          unfold pushChunk
          rw [h0]
          simp
        rw [List.foldl_cons, this]
        exact ih acc (fun x hx => he x (by simp [hx]))
    rw [hz events [] h]
    rfl
  · intro events' b hb hbnil
    have hne : ∀ c ∈ events'.foldl pushChunk ([] : List (List ℕ)), c ≠ [] :=
      foldl_pushChunk_ne_nil events' [] (by simp)
    unfold finalizeRecording at hb
    split at hb
    · exact Except.noConfusion hb
    · have hflat : (events'.foldl pushChunk []).flatten = b :=
        congrArg (fun x => match x with | Except.ok v => v | _ => b) hb
      rename_i hlen
      have hnil : events'.foldl pushChunk ([] : List (List ℕ)) ≠ [] := by
        intro hcon
        exact hlen (by rw [hcon]; rfl)
      rcases List.exists_mem_of_ne_nil _ hnil with ⟨c, hc⟩
      have : c = [] := by
        have hall := List.flatten_eq_nil_iff.1 (by rw [hflat, hbnil])
        exact hall c hc
      exact hne c hc this

/-- Witness for C9: two zero-size data events record nothing and the run
fails with the diagnostic. -/
theorem zeroChunks_fails_witness :
    (∀ e ∈ [([] : List ℕ), []], e.length = 0) ∧
    finalizeRecording ([([] : List ℕ), []].foldl pushChunk []) =
      Except.error "No data was recorded" :=
  ⟨by decide, (zeroChunks_fails [[], []] (by decide)).1⟩

/-- Claim C10: an `endTime` of `0`, `null`, or omitted is treated as "no
trim end": the export duration is the full source duration minus
`startTime`; a normalized end time is never exactly `0`, so a trim range
ending at `0` cannot be requested. -/
theorem endTime_falsy (startTime videoDuration : ℚ) :
    exportDuration none startTime videoDuration = videoDuration - startTime ∧
    exportDuration (some 0) startTime videoDuration = videoDuration - startTime ∧
    (∀ v : ℚ, v ≠ 0 →
        exportDuration (some v) startTime videoDuration = v - startTime) ∧
    (∀ e : Option ℚ, normalizedEndTime e ≠ some 0) := by
  refine ⟨rfl, by simp [exportDuration, normalizedEndTime], ?_, ?_⟩
  · intro v hv
    simp [exportDuration, normalizedEndTime, hv]
  · intro e
    cases e with
    | none => simp [normalizedEndTime]
    | some v =>
      by_cases hv : v = 0 <;> simp [normalizedEndTime, hv]

/-- Witness for C10: a nonzero `endTime` of `1` gives duration `1 - 0`. -/
theorem endTime_falsy_witness :
    ((1 : ℚ) ≠ 0) ∧ exportDuration (some 1) 0 10 = 1 - 0 :=
  ⟨one_ne_zero, (endTime_falsy 0 10).2.2.1 1 one_ne_zero⟩

/-- Any emitted sub-graph's parameters are exactly the formulas of
`transcode`'s layer loop (both the image and the text branch). -/
theorem layerOverlaySpec_some (startTime endTime scaleX scaleY : ℚ)
    (l : Layer) (spec : OverlaySpec)
    (h : layerOverlaySpec startTime endTime scaleX scaleY l = some spec) :
    spec = ⟨Int.ceil ((endTime - startTime) * 30) + 10,
      jsRound (l.transform.x * scaleX), jsRound (l.transform.y * scaleY),
      l.transform.scale.1 * scaleX, l.transform.scale.2 * scaleY⟩ := by
  simp only [layerOverlaySpec] at h
  split at h
  · exact Option.noConfusion h
  · cases hty : l.type <;> rw [hty] at h <;> exact (Option.some.inj h).symm

/-- Claim C1: for positive export duration `d = endTime - startTime`,
every synthesized overlay sub-graph (image layers and text layers alike)
loops its still for exactly `⌈d · 30⌉ + 10` frames — a finite positive
count, never the unbounded `-1` directive. -/
theorem loopCount_finite (startTime endTime scaleX scaleY : ℚ)
    (layers : List Layer) (spec : OverlaySpec)
    (hmem : spec ∈ buildOverlaySpecs startTime endTime scaleX scaleY layers)
    (hd : 0 < endTime - startTime) :
    spec.loop = Int.ceil ((endTime - startTime) * 30) + 10 ∧
    0 < spec.loop ∧ spec.loop ≠ -1 := by
  rcases List.mem_filterMap.1 hmem with ⟨l, _, hspec⟩
  have h := layerOverlaySpec_some _ _ _ _ _ _ hspec
  subst h
  have h30 : 0 < (endTime - startTime) * 30 := by
    have : (0:ℚ) < 30 := by norm_num
    exact mul_pos hd this
  have hc : 0 < Int.ceil ((endTime - startTime) * 30) := Int.ceil_pos.2 h30
  refine ⟨rfl, ?_, ?_⟩
  · show 0 < Int.ceil ((endTime - startTime) * 30) + 10
    omega
  · show Int.ceil ((endTime - startTime) * 30) + 10 ≠ -1
    omega

/-- Witness for C1: trim `[0, 5]`, scale factor `24/5`, one text layer
timed `[2, 5]` gives loop count `⌈5·30⌉ + 10 = 160`. -/
theorem loopCount_finite_witness :
    ((⟨160, 480, 480, 24/5, 24/5⟩ : OverlaySpec) ∈
        buildOverlaySpecs 0 5 (24/5) (24/5) [layerTwoFive]) ∧
    ((0 : ℚ) < 5 - 0) ∧
    ((⟨160, 480, 480, 24/5, 24/5⟩ : OverlaySpec).loop =
        Int.ceil (((5:ℚ) - 0) * 30) + 10 ∧
      0 < (⟨160, 480, 480, 24/5, 24/5⟩ : OverlaySpec).loop ∧
      (⟨160, 480, 480, 24/5, 24/5⟩ : OverlaySpec).loop ≠ -1) := by
  have hcalc : layerOverlaySpec 0 5 (24/5) (24/5) layerTwoFive =
      some ⟨160, 480, 480, 24/5, 24/5⟩ := by
    simp only [layerOverlaySpec, layerTwoFive, demoTransform]
    norm_num [jsRound]
  have hlist : buildOverlaySpecs 0 5 (24/5) (24/5) [layerTwoFive] =
      [⟨160, 480, 480, 24/5, 24/5⟩] := by
    simp only [buildOverlaySpecs, List.filterMap_cons, hcalc, List.filterMap_nil]
  have hmem : (⟨160, 480, 480, 24/5, 24/5⟩ : OverlaySpec) ∈
      buildOverlaySpecs 0 5 (24/5) (24/5) [layerTwoFive] := by
    rw [hlist]
    exact List.mem_singleton.2 rfl
  exact ⟨hmem, by norm_num,
    loopCount_finite 0 5 (24/5) (24/5) [layerTwoFive] _ hmem (by norm_num)⟩

/-- Counterexample for C5: at display `{400, 225}` → encode `{1920, 1080}`
(scale factors `24/5`), rotation `0`, user scale `[1,1]`, image size
`100 × 100` and layer position `(50, 50)`, the canvas compositor's
`drawImageOverlay` puts the image's top-left at `(0, 0)`, not at
`(x·scaleX, y·scaleY) = (240, 240)`: it centers the image at
`(240, 240)` instead. -/
theorem drawImageOverlay_centers_counterexample :
    ccDrawImageTopLeft 50 50 (24/5) (24/5) 100 100 (1, 1) = (0, 0) ∧
    ccDrawImageTopLeft 50 50 (24/5) (24/5) 100 100 (1, 1) ≠
      (50 * (24/5), 50 * (24/5)) := by
  have h0 : ccDrawImageTopLeft 50 50 (24/5) (24/5) 100 100 (1, 1) = (0, 0) := by
    simp only [ccDrawImageTopLeft]
    norm_num
  refine ⟨h0, ?_⟩
  rw [h0]
  intro hcon
  rw [Prod.mk.injEq] at hcon
  rcases hcon with ⟨hx, _⟩
  norm_num at hx

/-- Claim C5 (amended): the streaming exporter's `drawOverlay` — the
compositor the streaming export path actually runs — draws a raster layer
with rotation `0` and scale `[1,1]` with its top-left at
`(x·scaleX, y·scaleY)`, concretely `(240, 240)` for `x = y = 50` and
scale factors `24/5`; the canvas-compositor module's `drawImageOverlay`
instead centers the image at `(x·scaleX, y·scaleY)`, its top-left landing
at `(x·scaleX − sx·scaleX·w/2, y·scaleY − sy·scaleY·h/2)`. -/
theorem drawOverlay_image_topLeft (tx ty scaleX scaleY imgW imgH : ℚ) :
    mrDrawImageTopLeft tx ty scaleX scaleY imgW imgH (1, 1) =
      (tx * scaleX, ty * scaleY) ∧
    mrDrawImageTopLeft 50 50 (24/5) (24/5) imgW imgH (1, 1) = (240, 240) ∧
    (∀ bs : ℚ × ℚ, ccDrawImageTopLeft tx ty scaleX scaleY imgW imgH bs =
      (tx * scaleX - bs.1 * scaleX * (imgW / 2),
       ty * scaleY - bs.2 * scaleY * (imgH / 2))) := by
  refine ⟨?_, ?_, fun bs => ?_⟩ <;>
    simp only [mrDrawImageTopLeft, ccDrawImageTopLeft, Prod.mk.injEq] <;>
    constructor <;> ring

/-- `targetEvenDim` (the `trunc(v/2)*2` of the synthesized scale operator)
is, for nonnegative `v`, the greatest even integer not exceeding `v`. -/
theorem targetEvenDim_spec (v : ℚ) (hv : 0 ≤ v) :
    Even (targetEvenDim v) ∧ (targetEvenDim v : ℚ) ≤ v ∧
      v < targetEvenDim v + 2 := by
  have htr : ratTrunc (v / 2) = ⌊v / 2⌋ := by
    unfold ratTrunc
    rw [if_pos (by linarith)]
  refine ⟨⟨ratTrunc (v / 2), by unfold targetEvenDim; ring⟩, ?_, ?_⟩
  · unfold targetEvenDim
    rw [htr]
    push_cast
    have h := Int.floor_le (v / 2)
    linarith
  · unfold targetEvenDim
    rw [htr]
    push_cast
    have h := Int.lt_floor_add_one (v / 2)
    linarith

/-- Claim C6 (amended): the dimensions handed to each overlay sub-graph's
scale operator are `sourceWidth · scale.sx · scaleX` and
`sourceHeight · scale.sy · scaleY` truncated down to an even integer
(ffmpeg `trunc(v/2)*2`) — the greatest even integer not exceeding the
product (for nonnegative products), not the nearest even integer. -/
theorem scaleDims_even_truncation (startTime endTime scaleX scaleY : ℚ)
    (layers : List Layer) (spec : OverlaySpec)
    (hmem : spec ∈ buildOverlaySpecs startTime endTime scaleX scaleY layers)
    (iw ih : ℚ) (hw : 0 ≤ iw * spec.sfX) (hh : 0 ≤ ih * spec.sfY) :
    (Even (scaleOperatorWidth spec iw) ∧
      (scaleOperatorWidth spec iw : ℚ) ≤ iw * spec.sfX ∧
      iw * spec.sfX < scaleOperatorWidth spec iw + 2) ∧
    (Even (scaleOperatorHeight spec ih) ∧
      (scaleOperatorHeight spec ih : ℚ) ≤ ih * spec.sfY ∧
      ih * spec.sfY < scaleOperatorHeight spec ih + 2) ∧
    (∃ l ∈ layers, spec.sfX = l.transform.scale.1 * scaleX ∧
      spec.sfY = l.transform.scale.2 * scaleY) := by
  rcases List.mem_filterMap.1 hmem with ⟨l, hl, hspec⟩
  have h := layerOverlaySpec_some _ _ _ _ _ _ hspec
  refine ⟨targetEvenDim_spec _ hw, targetEvenDim_spec _ hh, l, hl, ?_, ?_⟩
  · rw [h]
  · rw [h]

/-- Counterexample for C6: with combined scale factor `1/10` and source
width `71`, the synthesized scale width is `6`, although the nearest even
integer to the product `71 · (1/10) = 7.1` is `8` (which is strictly
closer); the code truncates down to even rather than rounding to nearest
even. -/
theorem scaleDims_not_nearest_even_counterexample :
    buildOverlaySpecs 0 5 (1/10) (1/10) [layerImageTenth] =
      [⟨160, 0, 0, 1/10, 1/10⟩] ∧
    scaleOperatorWidth ⟨160, 0, 0, 1/10, 1/10⟩ 71 = 6 ∧
    Even (8 : ℤ) ∧
    |(8 : ℚ) - 71 * (1/10)| < |((6 : ℤ) : ℚ) - 71 * (1/10)| := by
  refine ⟨?_, ?_, ⟨4, by norm_num⟩, ?_⟩
  · have hcalc : layerOverlaySpec 0 5 (1/10) (1/10) layerImageTenth =
        some ⟨160, 0, 0, 1/10, 1/10⟩ := by
      simp only [layerOverlaySpec, layerImageTenth]
      norm_num [jsRound]
    simp only [buildOverlaySpecs, List.filterMap_cons, hcalc, List.filterMap_nil]
  · simp only [scaleOperatorWidth, targetEvenDim, ratTrunc]
    norm_num
  · have h1 : (8 : ℚ) - 71 * (1/10) = 9/10 := by norm_num
    have h2 : ((6 : ℤ) : ℚ) - 71 * (1/10) = -(11/10) := by norm_num
    rw [h1, h2, abs_neg,
      abs_of_pos (by norm_num : (0:ℚ) < 9/10),
      abs_of_pos (by norm_num : (0:ℚ) < 11/10)]
    norm_num

/-- Witness for C6: the concrete sub-graph of the counterexample setting
satisfies the even-truncation bounds for source dimensions `71 × 50`. -/
theorem scaleDims_even_truncation_witness :
    ((⟨160, 0, 0, 1/10, 1/10⟩ : OverlaySpec) ∈
        buildOverlaySpecs 0 5 (1/10) (1/10) [layerImageTenth]) ∧
    ((0 : ℚ) ≤ 71 * (⟨160, 0, 0, 1/10, 1/10⟩ : OverlaySpec).sfX) ∧
    ((0 : ℚ) ≤ 50 * (⟨160, 0, 0, 1/10, 1/10⟩ : OverlaySpec).sfY) ∧
    (Even (scaleOperatorWidth ⟨160, 0, 0, 1/10, 1/10⟩ 71) ∧
      (scaleOperatorWidth ⟨160, 0, 0, 1/10, 1/10⟩ 71 : ℚ) ≤
        71 * (⟨160, 0, 0, 1/10, 1/10⟩ : OverlaySpec).sfX ∧
      71 * (⟨160, 0, 0, 1/10, 1/10⟩ : OverlaySpec).sfX <
        scaleOperatorWidth ⟨160, 0, 0, 1/10, 1/10⟩ 71 + 2) := by
  have hcalc : layerOverlaySpec 0 5 (1/10) (1/10) layerImageTenth =
      some ⟨160, 0, 0, 1/10, 1/10⟩ := by
    simp only [layerOverlaySpec, layerImageTenth]
    norm_num [jsRound]
  have hmem : (⟨160, 0, 0, 1/10, 1/10⟩ : OverlaySpec) ∈
      buildOverlaySpecs 0 5 (1/10) (1/10) [layerImageTenth] := by
    have hlist : buildOverlaySpecs 0 5 (1/10) (1/10) [layerImageTenth] =
        [⟨160, 0, 0, 1/10, 1/10⟩] := by
      simp only [buildOverlaySpecs, List.filterMap_cons, hcalc, List.filterMap_nil]
    rw [hlist]
    exact List.mem_singleton.2 rfl
  have hw : (0 : ℚ) ≤ 71 * (⟨160, 0, 0, 1/10, 1/10⟩ : OverlaySpec).sfX := by
    norm_num
  have hh : (0 : ℚ) ≤ 50 * (⟨160, 0, 0, 1/10, 1/10⟩ : OverlaySpec).sfY := by
    norm_num
  exact ⟨hmem, hw, hh,
    (scaleDims_even_truncation 0 5 (1/10) (1/10) [layerImageTenth] _ hmem
      71 50 hw hh).1⟩

/-- `Math.round` stays within half a pixel of its argument. -/
theorem jsRound_within_half (q : ℚ) : |(jsRound q : ℚ) - q| ≤ 1/2 := by
  unfold jsRound
  rw [abs_le]
  constructor
  · have h := Int.sub_one_lt_floor (q + 1/2)
    linarith
  · have h := Int.floor_le (q + 1/2)
    linarith

/-- Counterexample for C2: at scale factors `24/5` a text layer at
preview `x = 51` is placed by the streaming compositor with element
top-left at exactly `51 · 24/5 = 244.8` encode pixels, while the
synthesized graph overlays its pre-rendered still at the rounded
`x = 245`; the two composited rasters place the same glyphs at different
positions, so they are not byte-identical. -/
theorem export_paths_differ_counterexample :
    buildOverlaySpecs 0 5 (24/5) (24/5) [layerText51] =
      [⟨160, 245, 240, 24/5, 24/5⟩] ∧
    (mrDrawTextBox 51 50 40 10 (24/5) (24/5)).1.1 = 1224/5 ∧
    ((245 : ℤ) : ℚ) ≠ 1224/5 := by
  refine ⟨?_, ?_, by norm_num⟩
  · have hcalc : layerOverlaySpec 0 5 (24/5) (24/5) layerText51 =
        some ⟨160, 245, 240, 24/5, 24/5⟩ := by
      simp only [layerOverlaySpec, layerText51]
      norm_num [jsRound]
    simp only [buildOverlaySpecs, List.filterMap_cons, hcalc, List.filterMap_nil]
  · simp only [mrDrawTextBox]
    ring_nf

/-- Claim C2 (amended): the two export paths share the reconciliation
arithmetic `(x·scaleX, y·scaleY)` but are not byte-identical: for any
layer overlapping the trim, the graph path's overlay position is the
integer rounding (`Math.round`) of the streaming path's exact element
top-left, hence within half an encode pixel of it but not equal in
general. -/
theorem graph_quantizes_streaming (startTime endTime scaleX scaleY : ℚ)
    (l : Layer)
    (hstop : 0 < min (endTime - startTime) (l.timing.«end» - startTime))
    (hstart : max 0 (l.timing.start - startTime) < endTime - startTime) :
    ∃ spec : OverlaySpec,
      buildOverlaySpecs startTime endTime scaleX scaleY [l] = [spec] ∧
      spec.x = jsRound (l.transform.x * scaleX) ∧
      spec.y = jsRound (l.transform.y * scaleY) ∧
      |(spec.x : ℚ) - l.transform.x * scaleX| ≤ 1/2 ∧
      |(spec.y : ℚ) - l.transform.y * scaleY| ≤ 1/2 ∧
      (∀ fontSize widthPerFontUnit : ℚ,
        (mrDrawTextBox l.transform.x l.transform.y fontSize widthPerFontUnit
            scaleX scaleY).1 =
          (l.transform.x * scaleX, l.transform.y * scaleY)) := by
  have hnone : ¬(min (endTime - startTime) (l.timing.«end» - startTime) ≤ 0 ∨
      max 0 (l.timing.start - startTime) ≥ endTime - startTime) := by
    push_neg
    exact ⟨hstop, hstart⟩
  have hsome : layerOverlaySpec startTime endTime scaleX scaleY l =
      some ⟨Int.ceil ((endTime - startTime) * 30) + 10,
        jsRound (l.transform.x * scaleX), jsRound (l.transform.y * scaleY),
        l.transform.scale.1 * scaleX, l.transform.scale.2 * scaleY⟩ := by
    simp only [layerOverlaySpec]
    rw [if_neg hnone]
    cases hty : l.type <;> rfl
  refine ⟨⟨Int.ceil ((endTime - startTime) * 30) + 10,
      jsRound (l.transform.x * scaleX), jsRound (l.transform.y * scaleY),
      l.transform.scale.1 * scaleX, l.transform.scale.2 * scaleY⟩,
    ?_, rfl, rfl, jsRound_within_half _, jsRound_within_half _, ?_⟩
  · simp only [buildOverlaySpecs, List.filterMap_cons, hsome, List.filterMap_nil]
  · intro fontSize widthPerFontUnit
    simp only [mrDrawTextBox, Prod.mk.injEq]
    constructor <;> ring

/-- Witness for C2: the amended statement applied to the `x = 51` text
layer with trim `[0, 5]` and scale factors `24/5`. -/
theorem graph_quantizes_streaming_witness :
    ((0:ℚ) < min ((5:ℚ) - 0) (layerText51.timing.«end» - 0)) ∧
    (max 0 (layerText51.timing.start - 0) < (5:ℚ) - 0) ∧
    (∃ spec : OverlaySpec,
      buildOverlaySpecs 0 5 (24/5) (24/5) [layerText51] = [spec] ∧
      spec.x = jsRound (layerText51.transform.x * (24/5)) ∧
      spec.y = jsRound (layerText51.transform.y * (24/5)) ∧
      |(spec.x : ℚ) - layerText51.transform.x * (24/5)| ≤ 1/2 ∧
      |(spec.y : ℚ) - layerText51.transform.y * (24/5)| ≤ 1/2 ∧
      (∀ fontSize widthPerFontUnit : ℚ,
        (mrDrawTextBox layerText51.transform.x layerText51.transform.y
            fontSize widthPerFontUnit (24/5) (24/5)).1 =
          (layerText51.transform.x * (24/5), layerText51.transform.y * (24/5)))) := by
  have h1 : (0:ℚ) < min ((5:ℚ) - 0) (layerText51.timing.«end» - 0) := by
    simp only [layerText51]
    norm_num
  have h2 : max 0 (layerText51.timing.start - 0) < (5:ℚ) - 0 := by
    simp only [layerText51]
    norm_num
  exact ⟨h1, h2, graph_quantizes_streaming 0 5 (24/5) (24/5) layerText51 h1 h2⟩

/-- Unfolding: placing into the empty row list opens row `[layer]`. -/
theorem placeLayer_nil (l : Layer) : placeLayer l [] = [[l]] := rfl

/-- Unfolding: an empty first row is skipped by the scan. -/
theorem placeLayer_cons_none (l : Layer) (row : List Layer)
    (rest : List (List Layer)) (h : row.getLast? = none) :
    placeLayer l (row :: rest) = row :: placeLayer l rest := by
  simp [placeLayer, h]

/-- Unfolding: the first row accepts `l` when its last layer ends no later
than `l` starts. -/
theorem placeLayer_cons_acc (l : Layer) (row : List Layer)
    (rest : List (List Layer)) (lastLayer : Layer)
    (h : row.getLast? = some lastLayer)
    (hc : lastLayer.timing.«end» ≤ l.timing.start) :
    placeLayer l (row :: rest) = (row ++ [l]) :: rest := by
  simp [placeLayer, h, hc]

/-- Unfolding: the first row rejects `l` when its last layer overlaps. -/
theorem placeLayer_cons_rej (l : Layer) (row : List Layer)
    (rest : List (List Layer)) (lastLayer : Layer)
    (h : row.getLast? = some lastLayer)
    (hc : ¬ lastLayer.timing.«end» ≤ l.timing.start) :
    placeLayer l (row :: rest) = row :: placeLayer l rest := by
  simp [placeLayer, h, hc]

/-- Placing a layer adds exactly that layer to the rows' contents. -/
theorem placeLayer_flatten_perm (l : Layer) (rows : List (List Layer)) :
    (placeLayer l rows).flatten.Perm (l :: rows.flatten) := by
  induction rows with
  | nil => simp [placeLayer]
  | cons row rest ih =>
    rcases hlast : row.getLast? with _ | lastLayer
    · rw [placeLayer_cons_none l row rest hlast]
      simp only [List.flatten_cons]
      exact (ih.append_left row).trans List.perm_middle
    · by_cases hc : lastLayer.timing.«end» ≤ l.timing.start
      · rw [placeLayer_cons_acc l row rest lastLayer hlast hc]
        simp only [List.flatten_cons, List.append_assoc, List.singleton_append]
        exact List.perm_middle
      · rw [placeLayer_cons_rej l row rest lastLayer hlast hc]
        simp only [List.flatten_cons]
        exact (ih.append_left row).trans List.perm_middle

/-- Each row stays a `precedes`-chain (consecutive row members do not
overlap) through a placement. -/
theorem placeLayer_chain (l : Layer) (rows : List (List Layer))
    (h : ∀ row ∈ rows, row.Chain' precedes) :
    ∀ row ∈ placeLayer l rows, row.Chain' precedes := by
  induction rows with
  | nil =>
    intro row hrow
    rw [placeLayer_nil] at hrow
    rcases List.mem_singleton.1 hrow with rfl
    exact List.chain'_singleton l
  | cons row rest ih =>
    intro r hr
    rcases hlast : row.getLast? with _ | lastLayer
    · rw [placeLayer_cons_none l row rest hlast] at hr
      rcases List.mem_cons.1 hr with rfl | hr'
      · exact h r (by simp)
      · exact ih (fun r' hr'' => h r' (by simp [hr''])) r hr'
    · by_cases hc : lastLayer.timing.«end» ≤ l.timing.start
      · rw [placeLayer_cons_acc l row rest lastLayer hlast hc] at hr
        rcases List.mem_cons.1 hr with rfl | hr'
        · rw [List.chain'_append]
          refine ⟨h row (by simp), List.chain'_singleton l, ?_⟩
          intro x hx y hy
          rw [hlast] at hx
          rcases Option.mem_some_iff.1 hx with rfl
          rw [List.head?_cons] at hy
          rcases Option.mem_some_iff.1 hy with rfl
          exact hc
        · exact h r (by simp [hr'])
      · rw [placeLayer_cons_rej l row rest lastLayer hlast hc] at hr
        rcases List.mem_cons.1 hr with rfl | hr'
        · exact h r (by simp)
        · exact ih (fun r' hr'' => h r' (by simp [hr''])) r hr'

/-- A member of the first row stays in the first row through a
placement. -/
theorem placeLayer_head_mem (l x : Layer) (rows : List (List Layer))
    (row0 : List Layer) (h : rows.head? = some row0) (hx : x ∈ row0) :
    ∃ row1, (placeLayer l rows).head? = some row1 ∧ x ∈ row1 := by
  cases rows with
  | nil => exact Option.noConfusion h
  | cons row rest =>
    rw [List.head?_cons] at h
    have hr : row = row0 := Option.some.inj h
    rw [← hr] at hx
    rcases hlast : row.getLast? with _ | lastLayer
    · rw [placeLayer_cons_none l row rest hlast]
      exact ⟨row, List.head?_cons, hx⟩
    · by_cases hc : lastLayer.timing.«end» ≤ l.timing.start
      · rw [placeLayer_cons_acc l row rest lastLayer hlast hc]
        exact ⟨row ++ [l], List.head?_cons, by simp [hx]⟩
      · rw [placeLayer_cons_rej l row rest lastLayer hlast hc]
        exact ⟨row, List.head?_cons, hx⟩

/-- Coverage invariant of the greedy scan: if some instant was covered in
every existing row, then after placing `l` (whose start is at least every
stored start) some instant — the old one, or `l.timing.start` when a new
row opens — is covered in every row. -/
theorem placeLayer_cover (l : Layer) (rows : List (List Layer))
    (hstarts : ∀ x ∈ rows.flatten, x.timing.start ≤ l.timing.start)
    (hl : l.timing.start < l.timing.«end») (p₀ : ℚ)
    (hp : ∀ row ∈ rows, ∃ x ∈ row, covers p₀ x) :
    (∀ row ∈ placeLayer l rows, ∃ x ∈ row, covers p₀ x) ∨
    (∀ row ∈ placeLayer l rows, ∃ x ∈ row, covers l.timing.start x) := by
  induction rows with
  | nil =>
    right
    intro row hrow
    rw [placeLayer_nil] at hrow
    rcases List.mem_singleton.1 hrow with rfl
    exact ⟨l, by simp, le_refl _, hl⟩
  | cons row rest ih =>
    have hrow0 := hp row (by simp)
    rcases hlast : row.getLast? with _ | lastLayer
    · have hnil : row = [] := List.getLast?_eq_none_iff.1 hlast
      subst hnil
      rcases hrow0 with ⟨x, hx, _⟩
      exact absurd hx (List.not_mem_nil x)
    · by_cases hc : lastLayer.timing.«end» ≤ l.timing.start
      · left
        rw [placeLayer_cons_acc l row rest lastLayer hlast hc]
        intro r hr
        rcases List.mem_cons.1 hr with rfl | hr'
        · rcases hrow0 with ⟨x, hx, hcov⟩
          exact ⟨x, by simp [hx], hcov⟩
        · exact hp r (by simp [hr'])
      · have hstarts' : ∀ x ∈ rest.flatten, x.timing.start ≤ l.timing.start := by
          intro x hx
          refine hstarts x ?_
          rw [List.flatten_cons]
          exact List.mem_append.2 (Or.inr hx)
        have hp' : ∀ r ∈ rest, ∃ x ∈ r, covers p₀ x :=
          fun r hr => hp r (by simp [hr])
        rcases ih hstarts' hp' with hcase | hcase
        · left
          rw [placeLayer_cons_rej l row rest lastLayer hlast hc]
          intro r hr
          rcases List.mem_cons.1 hr with rfl | hr'
          · exact hrow0
          · exact hcase r hr'
        · right
          rw [placeLayer_cons_rej l row rest lastLayer hlast hc]
          intro r hr
          rcases List.mem_cons.1 hr with rfl | hr'
          · have hmem : lastLayer ∈ r := by
              rcases List.getLast?_eq_some_iff.1 hlast with ⟨ys, hys⟩
              rw [hys]
              simp
            have hstart : lastLayer.timing.start ≤ l.timing.start := by
              refine hstarts lastLayer ?_
              rw [List.flatten_cons]
              exact List.mem_append.2 (Or.inl hmem)
            exact ⟨lastLayer, hmem, hstart, lt_of_not_le hc⟩
          · exact hcase r hr'

/-- The combined invariant of the first-fit fold: the rows' contents are a
permutation of the processed layers, every row is a `precedes`-chain, and
(unless there are no rows) some instant is covered in every row. -/
theorem foldl_placeLayer_inv (S : List Layer) :
    ∀ rows : List (List Layer),
      (∀ x ∈ rows.flatten, ∀ y ∈ S, x.timing.start ≤ y.timing.start) →
      List.Sorted startLE S →
      (∀ x ∈ rows.flatten, x.timing.start < x.timing.«end») →
      (∀ x ∈ S, x.timing.start < x.timing.«end») →
      (∀ row ∈ rows, row.Chain' precedes) →
      (rows = [] ∨ ∃ p, ∀ row ∈ rows, ∃ x ∈ row, covers p x) →
      ((S.foldl (fun rs l => placeLayer l rs) rows).flatten.Perm
          (rows.flatten ++ S) ∧
        (∀ row ∈ S.foldl (fun rs l => placeLayer l rs) rows,
          row.Chain' precedes) ∧
        (S.foldl (fun rs l => placeLayer l rs) rows = [] ∨
          ∃ p, ∀ row ∈ S.foldl (fun rs l => placeLayer l rs) rows,
            ∃ x ∈ row, covers p x)) := by
  induction S with
  | nil =>
    intro rows _ _ _ _ hchain hcover
    exact ⟨by simp, hchain, hcover⟩
  | cons l S' ih =>
    intro rows hstarts hsort hrse hSse hchain hcover
    rw [List.foldl_cons]
    have hstarts_l : ∀ x ∈ rows.flatten, x.timing.start ≤ l.timing.start :=
      fun x hx => hstarts x hx l (by simp)
    have hperm := placeLayer_flatten_perm l rows
    have hstarts' : ∀ x ∈ (placeLayer l rows).flatten, ∀ y ∈ S',
        x.timing.start ≤ y.timing.start := by
      intro x hx y hy
      rcases List.mem_cons.1 (hperm.mem_iff.1 hx) with rfl | hx'
      · exact (List.sorted_cons.1 hsort).1 y hy
      · exact hstarts x hx' y (by simp [hy])
    have hsort' : List.Sorted startLE S' := (List.sorted_cons.1 hsort).2
    have hrse' : ∀ x ∈ (placeLayer l rows).flatten,
        x.timing.start < x.timing.«end» := by
      intro x hx
      rcases List.mem_cons.1 (hperm.mem_iff.1 hx) with rfl | hx'
      · exact hSse x (by simp)
      · exact hrse x hx'
    have hSse' : ∀ x ∈ S', x.timing.start < x.timing.«end» :=
      fun x hx => hSse x (by simp [hx])
    have hchain' := placeLayer_chain l rows hchain
    have hcover' : placeLayer l rows = [] ∨
        ∃ p, ∀ row ∈ placeLayer l rows, ∃ x ∈ row, covers p x := by
      rcases hcover with hnil | ⟨p₀, hp⟩
      · subst hnil
        right
        refine ⟨l.timing.start, ?_⟩
        intro row hrow
        rw [placeLayer_nil] at hrow
        rcases List.mem_singleton.1 hrow with rfl
        exact ⟨l, by simp, le_refl _, hSse l (by simp)⟩
      · right
        rcases placeLayer_cover l rows hstarts_l (hSse l (by simp)) p₀ hp with
          hcase | hcase
        · exact ⟨p₀, hcase⟩
        · exact ⟨l.timing.start, hcase⟩
    obtain ⟨ihperm, ihchain, ihcover⟩ :=
      ih (placeLayer l rows) hstarts' hsort' hrse' hSse' hchain' hcover'
    refine ⟨?_, ihchain, ihcover⟩
    refine ihperm.trans ?_
    refine (hperm.append_right S').trans ?_
    have hmid : l :: rows.flatten ++ S' = l :: (rows.flatten ++ S') := by simp
    rw [hmid]
    exact List.perm_middle.symm

/-- Head relation of a `precedes`-chain: the first layer of a row ends no
later than any later row member starts (using that members' intervals are
ordered, `start ≤ end`). -/
theorem chain'_precedes_head (row : List Layer) :
    ∀ a : Layer, (∀ x ∈ row, x.timing.start ≤ x.timing.«end») →
      (a :: row).Chain' precedes → ∀ b ∈ row, precedes a b := by
  induction row with
  | nil =>
    intro a _ _ b hb
    exact absurd hb (List.not_mem_nil b)
  | cons c row' ih =>
    intro a hse hc b hb
    rw [List.chain'_cons] at hc
    rcases List.mem_cons.1 hb with rfl | hb'
    · exact hc.1
    · have hcb : precedes c b :=
        ih c (fun x hx => hse x (by simp [hx])) hc.2 b hb'
      have h1 : a.timing.«end» ≤ c.timing.start := hc.1
      have h2 : c.timing.start ≤ c.timing.«end» := hse c (by simp)
      exact le_trans h1 (le_trans h2 hcb)

/-- A `precedes`-chain of ordered intervals is pairwise `precedes`. -/
theorem chain'_precedes_pairwise (row : List Layer)
    (hse : ∀ x ∈ row, x.timing.start ≤ x.timing.«end»)
    (hc : row.Chain' precedes) : row.Pairwise precedes := by
  induction row with
  | nil => exact List.Pairwise.nil
  | cons a row' ih =>
    rw [List.chain'_cons'] at hc
    refine List.Pairwise.cons ?_ (ih (fun x hx => hse x (by simp [hx])) hc.2)
    refine chain'_precedes_head row' a (fun x hx => hse x (by simp [hx])) ?_
    rw [List.chain'_cons']
    exact hc

/-- In a pairwise non-overlapping row, at most one layer covers any given
instant. -/
theorem countP_covers_le_one (p : ℚ) (row : List Layer)
    (h : row.Pairwise NoOverlap) :
    row.countP (fun x => decide (covers p x)) ≤ 1 := by
  induction row with
  | nil => simp
  | cons a row' ih =>
    rw [List.countP_cons]
    rcases List.pairwise_cons.1 h with ⟨ha, h'⟩
    by_cases hca : covers p a
    · have hz : row'.countP (fun x => decide (covers p x)) = 0 := by
        rw [List.countP_eq_zero]
        intro b hb
        simp only [decide_eq_true_eq]
        intro hcb
        rcases ha b hb with hab | hba
        · exact absurd (lt_of_lt_of_le hca.2 (le_trans hab hcb.1))
            (lt_irrefl p)
        · exact absurd (lt_of_lt_of_le hcb.2 (le_trans hba hca.1))
            (lt_irrefl p)
      rw [hz]
      simp [hca]
    · have hle := ih h'
      simp only [decide_eq_true_eq, hca, if_false]
      omega

/-- If every row has a layer covering `p`, the number of rows is at most
the total number of coverers. -/
theorem length_le_countP_sum (R : List (List Layer)) (p : ℚ)
    (h : ∀ row ∈ R, ∃ x ∈ row, covers p x) :
    R.length ≤ (R.map (List.countP (fun x => decide (covers p x)))).sum := by
  induction R with
  | nil => simp
  | cons row R' ih =>
    simp only [List.map_cons, List.sum_cons, List.length_cons]
    have h1 : 1 ≤ row.countP (fun x => decide (covers p x)) := by
      rcases h row (by simp) with ⟨x, hx, hcov⟩
      exact List.countP_pos_iff.2 ⟨x, hx, by simp [hcov]⟩
    have h2 := ih (fun r hr => h r (by simp [hr]))
    omega

/-- If every row is pairwise non-overlapping, the total number of coverers
of `p` is at most the number of rows. -/
theorem countP_sum_le_length (R : List (List Layer)) (p : ℚ)
    (h : ∀ row ∈ R, row.Pairwise NoOverlap) :
    (R.map (List.countP (fun x => decide (covers p x)))).sum ≤ R.length := by
  induction R with
  | nil => simp
  | cons row R' ih =>
    simp only [List.map_cons, List.sum_cons, List.length_cons]
    have h1 := countP_covers_le_one p row (h row (by simp))
    have h2 := ih (fun r hr => h r (by simp [hr]))
    omega

/-- Rows whose contents never match the id leave the accumulator of the
row-map fold unchanged. -/
theorem layerRowMapFrom_no_match (rows : List (List Layer)) :
    ∀ (index i : ℕ) (acc : Option ℕ),
      (∀ row ∈ rows, row.any (fun layer => layer.id == i) = false) →
      layerRowMapFrom index rows i acc = acc := by
  induction rows with
  | nil => intro index i acc _; rfl
  | cons row rest ih =>
    intro index i acc h
    have h0 : row.any (fun layer => layer.id == i) = false := h row (by simp)
    show layerRowMapFrom (index + 1) rest i
        (if row.any (fun layer => layer.id == i) then some index else acc) = acc
    rw [h0]
    simp only [Bool.false_eq_true, if_false]
    exact ih (index + 1) i acc (fun r hr => h r (by simp [hr]))

/-- A member of the first row stays in the first row through the whole
fold. -/
theorem foldl_place_head_mem (S : List Layer) :
    ∀ (rows : List (List Layer)) (row0 : List Layer) (x : Layer),
      rows.head? = some row0 → x ∈ row0 →
      ∃ row1, (S.foldl (fun rs l => placeLayer l rs) rows).head? = some row1 ∧
        x ∈ row1 := by
  induction S with
  | nil => exact fun rows row0 x h hx => ⟨row0, h, hx⟩
  | cons l S' ih =>
    intro rows row0 x h hx
    rcases placeLayer_head_mem l x rows row0 h hx with ⟨row1, h1, hx1⟩
    rw [List.foldl_cons]
    exact ih (placeLayer l rows) row1 x h1 hx1

/-- Claim C4: for layers whose timing satisfies the data-model invariant
`start < end`, the timeline layout's row count is the least number of rows
of any partition of the layers into pairwise non-overlapping rows
(classical minimum interval packing); and a layer that ends no later than
every other layer starts is always assigned row `0` (given the store
invariant that ids are unique). -/
theorem getLayerRows_minimum (layers : List Layer)
    (hse : ∀ x ∈ layers, x.timing.start < x.timing.«end») :
    IsLeast {m : ℕ | ∃ P : List (List Layer), P.flatten.Perm layers ∧
        (∀ row ∈ P, row.Pairwise NoOverlap) ∧ P.length = m}
      (totalRows layers) ∧
    (∀ l ∈ layers,
        (∀ m ∈ layers, m.id ≠ l.id → l.timing.«end» ≤ m.timing.start) →
        (layers.map Layer.id).Nodup →
        layerRowMap (getLayerRows layers) l.id = some 0) := by
  have hsortS : List.Sorted startLE (List.insertionSort startLE layers) :=
    List.sorted_insertionSort startLE layers
  have hpermS : (List.insertionSort startLE layers).Perm layers :=
    List.perm_insertionSort startLE layers
  have hSse : ∀ x ∈ List.insertionSort startLE layers,
      x.timing.start < x.timing.«end» :=
    fun x hx => hse x ((List.mem_insertionSort startLE).1 hx)
  obtain ⟨hRperm0, hRchain, hRcover⟩ :=
    foldl_placeLayer_inv (List.insertionSort startLE layers) []
      (by intro x hx; simp at hx) hsortS (by intro x hx; simp at hx) hSse
      (by intro row hrow; simp at hrow) (Or.inl rfl)
  have hRchainG : ∀ row ∈ getLayerRows layers, row.Chain' precedes := hRchain
  have hRcoverG : getLayerRows layers = [] ∨
      ∃ p, ∀ row ∈ getLayerRows layers, ∃ x ∈ row, covers p x := hRcover
  have hRperm : (getLayerRows layers).flatten.Perm layers := by
    have h0 : (([] : List (List Layer)).flatten ++
        List.insertionSort startLE layers) =
        List.insertionSort startLE layers := by simp
    have h1 : (getLayerRows layers).flatten.Perm
        (([] : List (List Layer)).flatten ++
          List.insertionSort startLE layers) := hRperm0
    rw [h0] at h1
    exact h1.trans hpermS
  have hRpw : ∀ row ∈ getLayerRows layers, row.Pairwise NoOverlap := by
    intro row hrow
    have hmemse : ∀ x ∈ row, x.timing.start ≤ x.timing.«end» := by
      intro x hx
      have hxf : x ∈ (getLayerRows layers).flatten :=
        List.mem_flatten.2 ⟨row, hrow, hx⟩
      exact le_of_lt (hse x (hRperm.mem_iff.1 hxf))
    exact (chain'_precedes_pairwise row hmemse (hRchainG row hrow)).imp
      (fun h => Or.inl h)
  constructor
  · constructor
    · exact ⟨getLayerRows layers, hRperm, hRpw, rfl⟩
    · intro m hm
      obtain ⟨P, hPperm, hPpw, rfl⟩ := hm
      rcases hRcoverG with hRnil | ⟨p, hcov⟩
      · show (getLayerRows layers).length ≤ P.length
        rw [hRnil]
        simp
      · have c1 : (getLayerRows layers).length ≤
            ((getLayerRows layers).map
              (List.countP (fun x => decide (covers p x)))).sum :=
          length_le_countP_sum _ p hcov
        have c2 : ((getLayerRows layers).map
            (List.countP (fun x => decide (covers p x)))).sum =
            List.countP (fun x => decide (covers p x))
              (getLayerRows layers).flatten :=
          (List.countP_flatten _ _).symm
        have c3 : List.countP (fun x => decide (covers p x))
            (getLayerRows layers).flatten =
            List.countP (fun x => decide (covers p x)) layers :=
          List.Perm.countP_eq _ hRperm
        have c4 : List.countP (fun x => decide (covers p x)) layers =
            List.countP (fun x => decide (covers p x)) P.flatten :=
          (List.Perm.countP_eq _ hPperm).symm
        have c5 : List.countP (fun x => decide (covers p x)) P.flatten =
            (P.map (List.countP (fun x => decide (covers p x)))).sum :=
          List.countP_flatten _ _
        have c6 : (P.map (List.countP (fun x => decide (covers p x)))).sum ≤
            P.length := countP_sum_le_length P p hPpw
        show (getLayerRows layers).length ≤ P.length
        omega
  · intro l hl hothers hnodup
    have hlS : l ∈ List.insertionSort startLE layers :=
      (List.mem_insertionSort startLE).2 hl
    have hnodupS : ((List.insertionSort startLE layers).map Layer.id).Nodup :=
      ((hpermS.map Layer.id).nodup_iff).2 hnodup
    obtain ⟨h₀, t, hSeq⟩ : ∃ h₀ t,
        List.insertionSort startLE layers = h₀ :: t := by
      rcases hS : List.insertionSort startLE layers with _ | ⟨a, t⟩
      · rw [hS] at hlS
        exact absurd hlS (List.not_mem_nil l)
      · exact ⟨a, t, rfl⟩
    have hh₀S : h₀ ∈ List.insertionSort startLE layers := by
      rw [hSeq]
      simp
    have hh₀layers : h₀ ∈ layers := (List.mem_insertionSort startLE).1 hh₀S
    have hheq : h₀ = l := by
      by_cases hid : h₀.id = l.id
      · exact List.inj_on_of_nodup_map hnodupS hh₀S hlS hid
      · exfalso
        have h1 : l.timing.«end» ≤ h₀.timing.start :=
          hothers h₀ hh₀layers hid
        have h2 : h₀.timing.start ≤ l.timing.start := by
          rw [hSeq] at hlS
          rcases List.mem_cons.1 hlS with rfl | hlt
          · exact le_refl _
          · exact (List.sorted_cons.1 (hSeq ▸ hsortS)).1 l hlt
        have h3 : l.timing.start < l.timing.«end» := hse l hl
        linarith
    subst hheq
    have hfold : getLayerRows layers =
        t.foldl (fun rs x => placeLayer x rs) [[h₀]] := by
      show (List.insertionSort startLE layers).foldl
          (fun rows layer => placeLayer layer rows) [] = _
      rw [hSeq, List.foldl_cons]
      rfl
    obtain ⟨row1, hhead, hlmem⟩ :=
      foldl_place_head_mem t [[h₀]] [h₀] h₀ List.head?_cons (by simp)
    rw [← hfold] at hhead
    obtain ⟨R2, hReq⟩ : ∃ R2, getLayerRows layers = row1 :: R2 := by
      rcases hR : getLayerRows layers with _ | ⟨r, R2⟩
      · rw [hR] at hhead
        exact Option.noConfusion hhead
      · rw [hR, List.head?_cons] at hhead
        exact ⟨R2, by rw [Option.some.inj hhead]⟩
    have hcount : List.countP (fun x => x.id == h₀.id) layers = 1 := by
      have hpos : 0 < List.count h₀.id (layers.map Layer.id) :=
        List.count_pos_iff.2 (List.mem_map.2 ⟨h₀, hl, rfl⟩)
      have hle1 : List.count h₀.id (layers.map Layer.id) ≤ 1 :=
        List.nodup_iff_count_le_one.1 hnodup h₀.id
      have heq : List.count h₀.id (layers.map Layer.id) =
          List.countP (fun x => x.id == h₀.id) layers := by
        rw [List.count_eq_countP, List.countP_map]
        rfl
      omega
    have hflat_eq : List.countP (fun x => x.id == h₀.id)
        (getLayerRows layers).flatten = 1 := by
      rw [List.Perm.countP_eq _ hRperm]
      exact hcount
    rw [hReq, List.flatten_cons, List.countP_append] at hflat_eq
    have h1row : 1 ≤ List.countP (fun x => x.id == h₀.id) row1 :=
      List.countP_pos_iff.2 ⟨h₀, hlmem, by simp⟩
    have hzero : List.countP (fun x => x.id == h₀.id) R2.flatten = 0 := by
      omega
    have hno : ∀ row ∈ R2, row.any (fun layer => layer.id == h₀.id) = false := by
      intro row hrow
      rw [List.any_eq_false]
      intro x hx
      have hxf : x ∈ R2.flatten := List.mem_flatten.2 ⟨row, hrow, hx⟩
      exact List.countP_eq_zero.1 hzero x hxf
    rw [hReq]
    show layerRowMapFrom 1 R2 h₀.id
        (if row1.any (fun layer => layer.id == h₀.id) then some 0 else none) =
      some 0
    have hany : row1.any (fun layer => layer.id == h₀.id) = true :=
      List.any_eq_true.2 ⟨h₀, hlmem, by simp⟩
    rw [hany]
    simp only [if_true]
    exact layerRowMapFrom_no_match R2 1 h₀.id (some 0) hno

/-- Witness for C4: the two-layer store `[layerB, layerA]` (intervals
`[2,3]` and `[0,1]`, distinct ids) satisfies the invariants; the layout is
minimal and `layerA` (which ends before every other layer starts) lands in
row `0`. -/
theorem getLayerRows_minimum_witness :
    (∀ x ∈ [layerB, layerA], x.timing.start < x.timing.«end») ∧
    IsLeast {m : ℕ | ∃ P : List (List Layer), P.flatten.Perm [layerB, layerA] ∧
        (∀ row ∈ P, row.Pairwise NoOverlap) ∧ P.length = m}
      (totalRows [layerB, layerA]) ∧
    (layerA ∈ [layerB, layerA]) ∧
    (∀ m ∈ [layerB, layerA], m.id ≠ layerA.id →
        layerA.timing.«end» ≤ m.timing.start) ∧
    (([layerB, layerA].map Layer.id).Nodup) ∧
    layerRowMap (getLayerRows [layerB, layerA]) layerA.id = some 0 := by
  have hse : ∀ x ∈ [layerB, layerA], x.timing.start < x.timing.«end» := by
    intro x hx
    rcases List.mem_cons.1 hx with rfl | hx
    · show layerB.timing.start < layerB.timing.«end»
      simp only [layerB]
      norm_num
    · rcases List.mem_cons.1 hx with rfl | hx
      · show layerA.timing.start < layerA.timing.«end»
        simp only [layerA]
        norm_num
      · exact absurd hx (List.not_mem_nil x)
  have hoth : ∀ m ∈ [layerB, layerA], m.id ≠ layerA.id →
      layerA.timing.«end» ≤ m.timing.start := by
    intro m hm hne
    rcases List.mem_cons.1 hm with rfl | hm
    · show layerA.timing.«end» ≤ layerB.timing.start
      simp only [layerA, layerB]
      norm_num
    · rcases List.mem_cons.1 hm with rfl | hm
      · exact absurd rfl hne
      · exact absurd hm (List.not_mem_nil m)
  have hnodup : ([layerB, layerA].map Layer.id).Nodup := by
    simp only [List.map_cons, List.map_nil, layerA, layerB]
    decide
  have hA : layerA ∈ [layerB, layerA] := by simp
  exact ⟨hse, (getLayerRows_minimum [layerB, layerA] hse).1, hA, hoth, hnodup,
    (getLayerRows_minimum [layerB, layerA] hse).2 layerA hA hoth hnodup⟩

end Cuddles
